import Mathlib

/-!
# Verification of the Gantt-chart effort engine (`src/app.py`)

This file gives a shallow embedding of the data-processing core of the
Streamlit Gantt-chart application and proves properties of it.

Modelling conventions:

* Dates are integers counting days from a fixed Monday epoch, so a date `d`
  is a Monday exactly when `d % 7 = 0` and Python's `Timestamp.weekday()` is
  `d % 7` (Lean's `Int.emod` agrees with Python's `%` for a positive
  divisor).  All timestamps in the app are at date resolution.
* Effort values (`Efforts_Percentage`) are rationals.
* A pandas cell that may be `NaN`/missing is an `Option`.
-/

namespace Gantt

/-- One row of the expanded frame built by the week-expansion loop of
`app.py` (lines 42–71): fields `Name`, `Projects`, `week_start`, `Start`
(the clipped period start), `End` (the clipped period end), `Effort`,
`Skill`.  `skill` is `none` when the `Skill` cell is `NaN` (a row whose
skill list was empty). -/
structure WeekRow where
  name : String
  project : String
  week_start : Int
  period_start : Int
  period_end : Int
  effort : ℚ
  skill : Option String
deriving DecidableEq, Repr

/-- The cursor update of the loop body (`app.py` lines 53–54 and 69):
`week_start = current_start - weekday(current_start)`,
`week_end = week_start + 6 days`, `current_start = week_end + 1 day`. -/
def nextCursor (cur : Int) : Int :=
  let week_start := cur - cur % 7
  let week_end := week_start + 6
  week_end + 1

/-- The week-expansion loop of `app.py` (lines 51–69): starting at
`cur = start`, while `cur ≤ end` emit a row for the calendar week containing
`cur`, clipped to `[cur, end]`, then jump to the Monday of the next week. -/
def expandLoop (name project : String) (skill : Option String) (effort : ℚ)
    (e : Int) (cur : Int) : List WeekRow :=
  if h : cur ≤ e then
    let week_start := cur - cur % 7
    let week_end := week_start + 6
    let period_start := max cur week_start
    let period_end := min e week_end
    { name := name, project := project, week_start := week_start,
      period_start := period_start, period_end := period_end,
      effort := effort, skill := skill }
      :: expandLoop name project skill effort e (week_end + 1)
  else []
termination_by (e + 1 - cur).toNat
decreasing_by
  have h1 : 0 ≤ cur % 7 := Int.emod_nonneg cur (by norm_num)
  omega

/-- The `[period_start, period_end]` intervals of a list of week rows,
in emission order. -/
def periodsOf (l : List WeekRow) : List (Int × Int) :=
  l.map fun r => (r.period_start, r.period_end)

/-- Predicate `ChainCover s e l`: the intervals in `l` tile `[s, e]` from left to
right: the first starts at `s`, each is nonempty and stays inside `[s, e]`,
and each subsequent interval starts right after the previous one ends; the
list is empty exactly when `[s, e]` is empty. -/
def ChainCover : Int → Int → List (Int × Int) → Prop
  | s, e, [] => e < s
  | s, e, q :: rest => q.1 = s ∧ s ≤ e ∧ s ≤ q.2 ∧ q.2 ≤ e ∧ ChainCover (q.2 + 1) e rest

/-- The fuel-indexed variant of the week-expansion loop: `none` means the
fuel ran out before the loop guard `cur ≤ e` failed.  Used to state that the
`while` loop of `app.py` terminates within a bounded number of iterations. -/
def expandLoopFuel (name project : String) (skill : Option String) (effort : ℚ)
    (e : Int) : Nat → Int → Option (List WeekRow)
  | 0, cur => if cur ≤ e then none else some []
  | fuel + 1, cur =>
    if cur ≤ e then
      let week_start := cur - cur % 7
      let week_end := week_start + 6
      let period_start := max cur week_start
      let period_end := min e week_end
      let row : WeekRow :=
        { name := name, project := project, week_start := week_start,
          period_start := period_start, period_end := period_end,
          effort := effort, skill := skill }
      (expandLoopFuel name project skill effort e fuel (week_end + 1)).map (row :: ·)
    else some []

/-! ## Skill extraction and explosion (`app.py` lines 27–33) -/
/-- Model of `extract_skills` (lines 27–30): the `CoreSkill` and `OtherSkills` cells
(`none` = `NaN`) are split on commas, each token is stripped, and empty
tokens are discarded (`if skill.strip()`). -/
def extract_skills (core other : Option String) : List String :=
  let coreL := match core with | some c => c.splitOn "," | none => []
  let otherL := match other with | some o => o.splitOn "," | none => []
  ((coreL ++ otherL).map String.trim).filter (fun s => decide (s ≠ ""))

/-- The effect of `df.explode("Skill_List")` (line 33) on one row: pandas
turns an empty list into a single row whose `Skill` is `NaN`, and a
non-empty list into one row per element. -/
def explodeSkills (skills : List String) : List (Option String) :=
  match skills with
  | [] => [none]
  | l => l.map some

/-! ## Aggregation (`app.py` lines 74–84) -/
/-- pandas `Series.unique()` with an accumulator of already-seen values: distinct
values in order of first occurrence. -/
def uniqueFirstAux {α : Type} [DecidableEq α] (seen : List α) : List α → List α
  | [] => []
  | a :: l =>
    if a ∈ seen then uniqueFirstAux seen l else a :: uniqueFirstAux (a :: seen) l

/-- pandas `Series.unique()`: distinct values in order of first occurrence. -/
def uniqueFirst {α : Type} [DecidableEq α] (l : List α) : List α :=
  uniqueFirstAux [] l

/-- Python's `sorted` applied to the distinct values of a list of strings
(lines 78, 94, 110). -/
def sortedUnique (l : List String) : List String :=
  List.insertionSort (· ≤ ·) (uniqueFirst l)

/-- The `Projects` aggregation of line 78:
`lambda x: ', '.join(sorted(x.unique()))`. -/
def projectsLabel (l : List String) : String :=
  String.intercalate ", " (sortedUnique l)

/-- The grouping key of line 75:
`['Name', 'week_start', 'Start', 'End', 'Skill']`. -/
abbrev GroupKey := String × Int × Int × Int × String

/-- The group key carried by an expanded row, or `none` when its `Skill` is
`NaN`: pandas `groupby` silently drops rows with a null group key. -/
def segKey (r : WeekRow) : Option GroupKey :=
  r.skill.map fun sk => (r.name, r.week_start, r.period_start, r.period_end, sk)

/-- Each row paired with its group key; `NaN`-skill rows are dropped. -/
def keyedSegs (segs : List WeekRow) : List (GroupKey × WeekRow) :=
  segs.filterMap fun r => (segKey r).map fun k => (k, r)

/-- Lexicographic comparison of group keys: pandas `groupby` (with its
default `sort=True`) lists the groups in ascending key order. -/
def keyLEb (a b : GroupKey) : Bool :=
  if a.1 ≠ b.1 then decide (a.1 < b.1)
  else if a.2.1 ≠ b.2.1 then decide (a.2.1 < b.2.1)
  else if a.2.2.1 ≠ b.2.2.1 then decide (a.2.2.1 < b.2.2.1)
  else if a.2.2.2.1 ≠ b.2.2.2.1 then decide (a.2.2.2.1 < b.2.2.2.1)
  else decide (a.2.2.2.2 ≤ b.2.2.2.2)

def keyLE (a b : GroupKey) : Prop := keyLEb a b = true

instance keyLE.decRel : DecidableRel keyLE :=
  fun a b => instDecidableEqBool (keyLEb a b) true

/-- The group keys of the `groupby` of lines 74–82, deduplicated and in
pandas' ascending key order. -/
def groupKeys (segs : List WeekRow) : List GroupKey :=
  List.insertionSort keyLE (uniqueFirst ((keyedSegs segs).map Prod.fst))

/-- One row of the aggregated frame `weekly_sum` (lines 74–82): the key
columns, the summed effort (renamed `Effort%`), and the joined project
label.  `skill` is a plain `String`: rows with a `NaN` skill never reach
the aggregated frame. -/
structure AggRow where
  name : String
  week_start : Int
  period_start : Int
  period_end : Int
  skill : String
  effort : ℚ
  projects : String
deriving DecidableEq, Repr

/-- The aggregated row for one group key: `'Effort': 'sum'` and
`'Projects': lambda x: ', '.join(sorted(x.unique()))` (lines 76–79). -/
def aggRowFor (segs : List WeekRow) (k : GroupKey) : AggRow :=
  let group := ((keyedSegs segs).filter fun p => decide (p.1 = k)).map Prod.snd
  { name := k.1, week_start := k.2.1, period_start := k.2.2.1,
    period_end := k.2.2.2.1, skill := k.2.2.2.2,
    effort := (group.map WeekRow.effort).sum,
    projects := projectsLabel (group.map WeekRow.project) }

/-- The whole aggregation step (lines 74–84): one output row per distinct
group key. -/
def aggregate (segs : List WeekRow) : List AggRow :=
  (groupKeys segs).map (aggRowFor segs)

/-- The group key of an aggregated row. -/
def rowKey (r : AggRow) : GroupKey :=
  (r.name, r.week_start, r.period_start, r.period_end, r.skill)

/-! ## Filter engine (`app.py` lines 130–135) -/
/-- The boolean-mask filter of lines 130–135: keep the rows with
`Start >= start_date`, `End <= end_date`, `Name ∈ consultants` and
`Skill ∈ skills`.  `isin` is list membership; the option lists the UI
passes in never contain `NaN`, so they are plain string lists. -/
def filterEngine (startDate endDate : Int) (consultants skills : List String)
    (rows : List AggRow) : List AggRow :=
  rows.filter fun r =>
    decide (startDate ≤ r.period_start) && decide (r.period_end ≤ endDate)
      && decide (r.name ∈ consultants) && decide (r.skill ∈ skills)

/-- Line 94: `consultant_list = sorted(expanded_df['Name'].unique())`. -/
def consultantList (rows : List AggRow) : List String :=
  sortedUnique (rows.map AggRow.name)

/-- Line 110: `skills = sorted(expanded_df['Skill'].dropna().unique())`;
aggregated rows never carry a null skill, so `dropna` is the identity. -/
def skillList (rows : List AggRow) : List String :=
  sortedUnique (rows.map AggRow.skill)

/-! ## Column presence and the missing-column behaviour (lines 17–49) -/
/-- The column rename map of lines 19–25 (`df.rename`): a mapping key that
is not a column of the frame is silently ignored, so the map is total on
column names. -/
def renameMap (c : String) : String :=
  if c = "ConsultantName" then "Name"
  else if c = "ProjectName" then "Projects"
  else if c = "Efforts_Percentage" then "Effort"
  else if c = "StartDate" then "Start"
  else if c = "EndDate" then "End"
  else c

/-- The stage of the script at which a missing column first raises a
`KeyError`: per-row skill extraction (`df.apply`, lines 27–32),
whole-column type coercion (lines 36–38), or the per-row week expansion
(lines 43–49). -/
inductive Stage
  | skillExtract
  | coerce
  | expand
deriving DecidableEq, Repr

/-- A `KeyError` escaping the script: the stage at which it is raised and
the missing column's name. -/
structure PipelineError where
  stage : Stage
  col : String
deriving DecidableEq, Repr

/-- Modelled from the column accesses of lines 17–49: given the source
column names and the number of (valid) data rows, either every column
access succeeds or the first failing access raises a `KeyError` naming its
stage and column.  Per-row accesses (`row["CoreSkill"]` /
`row["OtherSkills"]` in `extract_skills`, and `row['Projects']` /
`row['Name']` in the expansion loop) only raise when at least one row
exists; the whole-column coercions `df['Start']`, `df['End']`,
`df['Effort']` raise even on an empty frame.  The order matches the
script: skill extraction, then coercion, then the expansion loop's reads
(`Start`, `End`, `Effort` are already present after coercion, and `Skill`
is created by the explode of line 33). -/
def runPipeline (cols0 : List String) (nrows : Nat) : Except PipelineError Unit :=
  let cols := cols0.map renameMap
  if 0 < nrows ∧ "CoreSkill" ∉ cols then .error ⟨.skillExtract, "CoreSkill"⟩
  else if 0 < nrows ∧ "OtherSkills" ∉ cols then .error ⟨.skillExtract, "OtherSkills"⟩
  else if "Start" ∉ cols then .error ⟨.coerce, "Start"⟩
  else if "End" ∉ cols then .error ⟨.coerce, "End"⟩
  else if "Effort" ∉ cols then .error ⟨.coerce, "Effort"⟩
  else if 0 < nrows ∧ "Projects" ∉ cols then .error ⟨.expand, "Projects"⟩
  else if 0 < nrows ∧ "Name" ∉ cols then .error ⟨.expand, "Name"⟩
  else .ok ()

/-- Demo segment: Bob works on project A, effort 30, over a full week. -/
def segBobA : WeekRow :=
  { name := "Bob", project := "A", week_start := 0, period_start := 0,
    period_end := 6, effort := 30, skill := some "S" }

/-- Demo segment: Bob works on project B, effort 40, over the same full
week (same group key as `segBobA` up to the project name). -/
def segBobB : WeekRow :=
  { name := "Bob", project := "B", week_start := 0, period_start := 0,
    period_end := 6, effort := 40, skill := some "S" }

/-- Demo segment: Bob works on project A, effort 40, over part of the same
week (same consultant and `week_start` as `segBobA`, different clipped
period). -/
def segBobA2 : WeekRow :=
  { name := "Bob", project := "A", week_start := 0, period_start := 2,
    period_end := 4, effort := 40, skill := some "S" }

/-- The aggregated row obtained from `segBobA` and `segBobB` together. -/
def aggBob : AggRow :=
  { name := "Bob", week_start := 0, period_start := 0, period_end := 6,
    skill := "S", effort := 70, projects := "A, B" }

/-! ## Theorems -/

theorem chainCover_expandLoop (name project : String) (skill : Option String)
    (effort : ℚ) (e cur : Int) :
    ChainCover cur e (periodsOf (expandLoop name project skill effort e cur)) := by
  induction cur using expandLoop.induct name project skill effort e with
  | case1 cur h week_start week_end ih =>
    have h1 : 0 ≤ cur % 7 := Int.emod_nonneg cur (by norm_num)
    have h2 : cur % 7 < 7 := Int.emod_lt_of_pos cur (by norm_num)
    rw [expandLoop, dif_pos h]
    dsimp only [periodsOf]
    simp only [List.map_cons]
    have hps : max cur (cur - cur % 7) = cur := max_eq_left (by omega)
    refine ⟨hps, h, ?_, ?_, ?_⟩
    · rw [hps]; omega
    · omega
    · rcases le_or_lt (cur - cur % 7 + 6) e with hle | hlt
      · have : min e (cur - cur % 7 + 6) = cur - cur % 7 + 6 := min_eq_right hle
        rw [this]
        exact ih
      · have hmin : min e (cur - cur % 7 + 6) = e := min_eq_left (le_of_lt hlt)
        rw [hmin]
        -- the recursive call starts past `e`, so it emitted nothing
        have hrest : expandLoop name project skill effort e (cur - cur % 7 + 6 + 1) = [] := by
          rw [expandLoop, dif_neg (by omega)]
        rw [hrest]
        simp [periodsOf, ChainCover]
  | case2 cur h =>
    rw [expandLoop, dif_neg h]
    simp only [periodsOf, List.map_nil, ChainCover]
    omega

theorem ChainCover.mem_iff {s e : Int} {l : List (Int × Int)}
    (h : ChainCover s e l) :
    ∀ d : Int, (∃ q ∈ l, q.1 ≤ d ∧ d ≤ q.2) ↔ (s ≤ d ∧ d ≤ e) := by
  induction l generalizing s with
  | nil =>
    intro d
    simp only [ChainCover] at h
    simp only [List.not_mem_nil, false_and, exists_false, false_iff, not_and, not_le]
    omega
  | cons q rest ih =>
    intro d
    obtain ⟨hq1, hse, hq2a, hq2b, hrest⟩ := h
    have := ih hrest d
    simp only [List.mem_cons, exists_eq_or_imp] at *
    constructor
    · rintro (⟨hd1, hd2⟩ | hex)
      · omega
      · have := this.mp hex
        omega
    · intro hd
      rcases le_or_lt d q.2 with hle | hlt
      · exact Or.inl ⟨by omega, hle⟩
      · exact Or.inr (this.mpr (by omega))

theorem ChainCover.bounds {s e : Int} {l : List (Int × Int)}
    (h : ChainCover s e l) : ∀ q ∈ l, s ≤ q.1 ∧ q.2 ≤ e := by
  induction l generalizing s with
  | nil => intro q hq; simp at hq
  | cons p rest ih =>
    obtain ⟨hp1, hse, hp2a, hp2b, hrest⟩ := h
    intro q hq
    rcases List.mem_cons.mp hq with rfl | hmem
    · exact ⟨le_of_eq hp1.symm, hp2b⟩
    · have := ih hrest q hmem
      omega

theorem ChainCover.pairwise {s e : Int} {l : List (Int × Int)}
    (h : ChainCover s e l) : l.Pairwise (fun a b => a.2 < b.1) := by
  induction l generalizing s with
  | nil => exact List.Pairwise.nil
  | cons q rest ih =>
    obtain ⟨hq1, hse, hq2a, hq2b, hrest⟩ := h
    refine List.Pairwise.cons ?_ (ih hrest)
    intro b hb
    have := hrest.bounds b hb
    omega

theorem ChainCover.chain' {s e : Int} {l : List (Int × Int)}
    (h : ChainCover s e l) : List.Chain' (fun a b => b.1 = a.2 + 1) l := by
  induction l generalizing s with
  | nil => exact List.chain'_nil
  | cons q rest ih =>
    obtain ⟨hq1, hse, hq2a, hq2b, hrest⟩ := h
    cases rest with
    | nil => simp
    | cons p rest' =>
      exact List.Chain'.cons hrest.1 (ih hrest)

/-- Unfolding lemma for `expandLoop` when the loop guard holds, with the
`let`-bindings of the body expanded. -/
theorem expandLoop_of_le {name project : String} {skill : Option String}
    {effort : ℚ} {e cur : Int} (h : cur ≤ e) :
    expandLoop name project skill effort e cur =
      { name := name, project := project, week_start := cur - cur % 7,
        period_start := max cur (cur - cur % 7),
        period_end := min e (cur - cur % 7 + 6),
        effort := effort, skill := skill }
        :: expandLoop name project skill effort e (cur - cur % 7 + 6 + 1) := by
  rw [expandLoop, dif_pos h]

/-- Unfolding lemma for `expandLoop` when the loop guard fails. -/
theorem expandLoop_of_gt {name project : String} {skill : Option String}
    {effort : ℚ} {e cur : Int} (h : ¬ cur ≤ e) :
    expandLoop name project skill effort e cur = [] := by
  rw [expandLoop, dif_neg h]

/-- Unfolding lemma for `expandLoopFuel` on positive fuel with the loop
guard holding. -/
theorem expandLoopFuel_succ_of_le {name project : String} {skill : Option String}
    {effort : ℚ} {e cur : Int} {fuel : Nat} (h : cur ≤ e) :
    expandLoopFuel name project skill effort e (fuel + 1) cur =
      (expandLoopFuel name project skill effort e fuel (cur - cur % 7 + 6 + 1)).map
        (fun rest =>
          { name := name, project := project, week_start := cur - cur % 7,
            period_start := max cur (cur - cur % 7),
            period_end := min e (cur - cur % 7 + 6),
            effort := effort, skill := skill } :: rest) := by
  rw [expandLoopFuel, if_pos h]

/-- C1: for a record with `start ≤ end`, the emitted
`[period_start, period_end]` intervals, taken in order, exactly cover
`[start, end]`: a day lies in some emitted interval iff it lies in
`[start, end]`, the intervals are pairwise disjoint (each ends strictly
before any later one starts), and consecutive intervals leave no gap (each
starts exactly one day after its predecessor ends). -/
theorem segmenter_covers_range (name project : String) (skill : Option String)
    (effort : ℚ) (s e : Int) (_h : s ≤ e) :
    (∀ d : Int, (∃ q ∈ periodsOf (expandLoop name project skill effort e s),
        q.1 ≤ d ∧ d ≤ q.2) ↔ (s ≤ d ∧ d ≤ e))
    ∧ (periodsOf (expandLoop name project skill effort e s)).Pairwise
        (fun a b => a.2 < b.1)
    ∧ List.Chain' (fun a b => b.1 = a.2 + 1)
        (periodsOf (expandLoop name project skill effort e s)) :=
  have hc := chainCover_expandLoop name project skill effort e s
  ⟨hc.mem_iff, hc.pairwise, hc.chain'⟩

theorem segmenter_covers_range_witness :
    (2 : Int) ≤ 15
    ∧ ((∀ d : Int, (∃ q ∈ periodsOf (expandLoop "Alice" "P1" none 50 15 2),
          q.1 ≤ d ∧ d ≤ q.2) ↔ (2 ≤ d ∧ d ≤ 15))
       ∧ (periodsOf (expandLoop "Alice" "P1" none 50 15 2)).Pairwise
           (fun a b => a.2 < b.1)
       ∧ List.Chain' (fun a b => b.1 = a.2 + 1)
           (periodsOf (expandLoop "Alice" "P1" none 50 15 2))) :=
  ⟨by decide, segmenter_covers_range "Alice" "P1" none 50 2 15 (by decide)⟩

/-- C6: every row emitted by the week-expansion loop (for a record with
`start ≤ end`) has a `week_start` that is a Monday (day number divisible by
7, the epoch being a Monday) and satisfies
`week_start ≤ period_start ≤ period_end ≤ week_start + 6`. -/
theorem segmenter_week_alignment (name project : String) (skill : Option String)
    (effort : ℚ) (s e : Int) (_h : s ≤ e) :
    ∀ r ∈ expandLoop name project skill effort e s,
      r.week_start % 7 = 0 ∧ r.week_start ≤ r.period_start ∧
        r.period_start ≤ r.period_end ∧ r.period_end ≤ r.week_start + 6 := by
  clear _h
  induction s using expandLoop.induct name project skill effort e with
  | case1 cur h week_start week_end ih =>
    rw [expandLoop, dif_pos h]
    intro r hr
    have h1 : 0 ≤ cur % 7 := Int.emod_nonneg cur (by norm_num)
    have h2 : cur % 7 < 7 := Int.emod_lt_of_pos cur (by norm_num)
    rcases List.mem_cons.mp hr with rfl | hmem
    · dsimp only
      refine ⟨by omega, le_max_right _ _, ?_, min_le_right _ _⟩
      rw [max_eq_left (by omega)]
      exact le_min h (by omega)
    · exact ih r hmem
  | case2 cur h =>
    rw [expandLoop, dif_neg h]
    intro r hr
    simp at hr

theorem segmenter_week_alignment_witness :
    (0 : Int) ≤ 6
    ∧ ({ name := "A", project := "P", week_start := 0, period_start := 0,
         period_end := 6, effort := 50, skill := some "S" } : WeekRow)
        ∈ expandLoop "A" "P" (some "S") 50 6 0
    ∧ ((0 : Int) % 7 = 0 ∧ (0 : Int) ≤ 0 ∧ (0 : Int) ≤ 6 ∧ (6 : Int) ≤ 0 + 6) := by
  have hmem : ({ name := "A", project := "P", week_start := 0, period_start := 0,
                 period_end := 6, effort := 50, skill := some "S" } : WeekRow)
      ∈ expandLoop "A" "P" (some "S") 50 6 0 := by
    rw [expandLoop_of_le (by decide), expandLoop_of_gt (by decide)]
    norm_num
  have := segmenter_week_alignment "A" "P" (some "S") 50 0 6 (by decide) _ hmem
  exact ⟨by decide, hmem, this⟩

/-- C10: a record with `start > end` yields zero rows from the
week-expansion loop: the loop guard fails immediately, so the record
silently disappears (the loop is total and raises no error). -/
theorem segmenter_empty_of_start_gt_end (name project : String)
    (skill : Option String) (effort : ℚ) (s e : Int) (h : e < s) :
    expandLoop name project skill effort e s = [] := by
  rw [expandLoop, dif_neg (by omega)]

theorem segmenter_empty_of_start_gt_end_witness :
    (3 : Int) < 5 ∧ expandLoop "A" "P" none 10 3 5 = [] :=
  ⟨by decide, segmenter_empty_of_start_gt_end "A" "P" none 10 5 3 (by decide)⟩

/-- C7, counterexample to "the cursor strictly increases by at least 7 days
on each iteration": starting the loop at a Wednesday (day 2), the cursor
update of line 69 moves it to the next Monday (day 7), an advance of only
5 days. -/
theorem segmenter_cursor_jump_lt_seven :
    nextCursor 2 = 7 ∧ ¬ ((2 : Int) + 7 ≤ nextCursor 2) := by decide

/-- C7 (amended): the loop terminates because the cursor strictly increases
on every iteration (by at least one day and at most seven — it jumps to the
Monday of the next calendar week), and is bounded by `end`: with fuel at
least `end + 1 - cursor` days, the fuel-indexed loop completes and computes
exactly `expandLoop`. -/
theorem segmenter_terminates (name project : String) (skill : Option String)
    (effort : ℚ) (e cur : Int) (fuel : Nat)
    (h : (e + 1 - cur).toNat ≤ fuel) :
    cur < nextCursor cur ∧ nextCursor cur ≤ cur + 7
    ∧ expandLoopFuel name project skill effort e fuel cur
        = some (expandLoop name project skill effort e cur) := by
  have h1 : 0 ≤ cur % 7 := Int.emod_nonneg cur (by norm_num)
  have h2 : cur % 7 < 7 := Int.emod_lt_of_pos cur (by norm_num)
  refine ⟨?_, ?_, ?_⟩
  · show cur < cur - cur % 7 + 6 + 1
    omega
  · show cur - cur % 7 + 6 + 1 ≤ cur + 7
    omega
  clear h1 h2
  induction fuel generalizing cur with
  | zero =>
    have hc : ¬ cur ≤ e := by omega
    rw [expandLoop_of_gt hc]
    show (if cur ≤ e then none else some []) = some []
    rw [if_neg hc]
  | succ f ih =>
    by_cases hc : cur ≤ e
    · have h1 : 0 ≤ cur % 7 := Int.emod_nonneg cur (by norm_num)
      have h2 : cur % 7 < 7 := Int.emod_lt_of_pos cur (by norm_num)
      rw [expandLoopFuel_succ_of_le hc]
      rw [ih (cur - cur % 7 + 6 + 1) (by omega)]
      rw [expandLoop_of_le hc]
      rfl
    · rw [expandLoop_of_gt hc]
      show (if cur ≤ e then _ else some []) = some []
      rw [if_neg hc]

theorem segmenter_terminates_witness :
    ((6 : Int) + 1 - 0).toNat ≤ 7
    ∧ ((0 : Int) < nextCursor 0 ∧ nextCursor 0 ≤ 0 + 7
       ∧ expandLoopFuel "A" "P" none 50 6 7 0
           = some (expandLoop "A" "P" none 50 6 0)) :=
  ⟨by decide, segmenter_terminates "A" "P" none 50 6 0 7 (by decide)⟩

theorem mem_uniqueFirstAux {α : Type} [DecidableEq α] {a : α}
    (seen : List α) (l : List α) :
    a ∈ uniqueFirstAux seen l ↔ a ∈ l ∧ a ∉ seen := by
  induction l generalizing seen with
  | nil => simp [uniqueFirstAux]
  | cons b l ih =>
    by_cases hb : b ∈ seen
    · rw [uniqueFirstAux, if_pos hb, ih]
      constructor
      · rintro ⟨h1, h2⟩; exact ⟨List.mem_cons_of_mem _ h1, h2⟩
      · rintro ⟨h1, h2⟩
        rcases List.mem_cons.mp h1 with rfl | h1
        · exact absurd hb h2
        · exact ⟨h1, h2⟩
    · rw [uniqueFirstAux, if_neg hb]
      by_cases hab : a = b
      · subst hab; simp [hb]
      · simp only [List.mem_cons, hab, false_or, ih, List.mem_cons]

theorem nodup_uniqueFirstAux {α : Type} [DecidableEq α]
    (seen : List α) (l : List α) : (uniqueFirstAux seen l).Nodup := by
  induction l generalizing seen with
  | nil => exact List.nodup_nil
  | cons b l ih =>
    by_cases hb : b ∈ seen
    · rw [uniqueFirstAux, if_pos hb]; exact ih seen
    · rw [uniqueFirstAux, if_neg hb]
      refine List.Nodup.cons ?_ (ih (b :: seen))
      intro hmem
      exact ((mem_uniqueFirstAux _ _).mp hmem).2 (List.mem_cons_self b seen)

theorem mem_uniqueFirst {α : Type} [DecidableEq α] {a : α} (l : List α) :
    a ∈ uniqueFirst l ↔ a ∈ l := by
  rw [uniqueFirst, mem_uniqueFirstAux]
  simp

theorem nodup_uniqueFirst {α : Type} [DecidableEq α] (l : List α) :
    (uniqueFirst l).Nodup :=
  nodup_uniqueFirstAux [] l

/-! ## Aggregator lemmas -/
theorem rowKey_aggRowFor (segs : List WeekRow) (k : GroupKey) :
    rowKey (aggRowFor segs k) = k := rfl

theorem keyedSegs_filter_eq (segs : List WeekRow) (k : GroupKey) :
    ((keyedSegs segs).filter fun p => decide (p.1 = k)).map Prod.snd
      = segs.filter fun s => decide (segKey s = some k) := by
  induction segs with
  | nil => rfl
  | cons s rest ih =>
    cases hsk : segKey s with
    | none =>
      simp only [keyedSegs, List.filterMap_cons, hsk, Option.map_none',
        List.filter_cons] at ih ⊢
      simpa [hsk] using ih
    | some k' =>
      simp only [keyedSegs, List.filterMap_cons, hsk, Option.map_some',
        List.filter_cons] at ih ⊢
      by_cases hk : k' = k
      · subst hk
        simpa [hsk] using ih
      · simpa [hsk, hk] using ih

theorem mem_groupKeys {segs : List WeekRow} {k : GroupKey} :
    k ∈ groupKeys segs ↔ k ∈ (keyedSegs segs).map Prod.fst := by
  rw [groupKeys, List.mem_insertionSort, mem_uniqueFirst]

theorem nodup_groupKeys (segs : List WeekRow) : (groupKeys segs).Nodup :=
  ((List.perm_insertionSort keyLE _).nodup_iff).mpr (nodup_uniqueFirst _)

theorem keyedSegs_filter_isSome (segs : List WeekRow) :
    keyedSegs (segs.filter fun r => r.skill.isSome) = keyedSegs segs := by
  induction segs with
  | nil => rfl
  | cons s rest ih =>
    cases hsk : s.skill with
    | none =>
      have hkey : segKey s = none := by simp [segKey, hsk]
      simp only [List.filter_cons, hsk, Option.isSome_none, Bool.false_eq_true,
        if_false, keyedSegs, List.filterMap_cons, hkey, Option.map_none']
      exact ih
    | some sk =>
      have hkey : segKey s = some (s.name, s.week_start, s.period_start,
          s.period_end, sk) := by simp [segKey, hsk]
      simp only [List.filter_cons, hsk, Option.isSome_some, if_true,
        keyedSegs, List.filterMap_cons, hkey, Option.map_some']
      simp only [keyedSegs] at ih
      rw [ih]

/-- C2 (amended): the aggregated effort sums per full groupby key
`(consultant, week_start, period_start, period_end, skill)`: every output
row's `Effort%` equals the sum of the efforts of exactly those input
segments sharing its full key; output keys are pairwise distinct; and
every input segment with a non-null skill is represented by an output row
with its key. -/
theorem aggregator_effort_additivity (segs : List WeekRow) :
    (∀ row ∈ aggregate segs,
        row.effort = ((segs.filter fun s => decide (segKey s = some (rowKey row))).map
            WeekRow.effort).sum)
    ∧ (aggregate segs).Pairwise (fun a b => rowKey a ≠ rowKey b)
    ∧ (∀ s ∈ segs, ∀ k, segKey s = some k →
        ∃ row ∈ aggregate segs, rowKey row = k) := by
  refine ⟨?_, ?_, ?_⟩
  · intro row hrow
    obtain ⟨k, hk, rfl⟩ := List.mem_map.mp hrow
    rw [rowKey_aggRowFor]
    show (aggRowFor segs k).effort = _
    rw [aggRowFor]
    dsimp only
    rw [keyedSegs_filter_eq]
  · rw [aggregate, List.pairwise_map]
    refine (nodup_groupKeys segs).imp ?_
    intro a b hab
    rw [rowKey_aggRowFor, rowKey_aggRowFor]
    exact hab
  · intro s hs k hk
    refine ⟨aggRowFor segs k, ?_, rowKey_aggRowFor segs k⟩
    rw [aggregate]
    refine List.mem_map_of_mem _ ?_
    rw [mem_groupKeys]
    refine List.mem_map.mpr ⟨(k, s), ?_, rfl⟩
    rw [keyedSegs]
    exact List.mem_filterMap.mpr ⟨s, hs, by rw [hk]; rfl⟩

/-- C2, counterexample to aggregation keyed by `(consultant, week_start)`
alone: two segments for the same consultant and the same week whose
clipped periods differ fall into different groups (the groupby key of line
75 also contains `Start`, `End` and `Skill`), so the output has two rows
with efforts 30 and 40 and no row carries the consultant-week total 70. -/
theorem aggregator_not_keyed_by_week_alone :
    (aggregate [segBobA, segBobA2]).map AggRow.effort = [30, 40]
    ∧ (70 : ℚ) ∉ (aggregate [segBobA, segBobA2]).map AggRow.effort := by
  norm_num [aggregate, groupKeys, keyedSegs, segKey, uniqueFirst, uniqueFirstAux,
    aggRowFor, projectsLabel, sortedUnique, keyLE, keyLEb, rowKey,
    segBobA, segBobA2, List.insertionSort, List.orderedInsert,
    List.filterMap_cons, Option.map, Function.comp]

theorem aggregator_effort_additivity_witness :
    aggBob ∈ aggregate [segBobA, segBobB]
    ∧ aggBob.effort
        = (([segBobA, segBobB].filter
            fun s => decide (segKey s = some (rowKey aggBob))).map
          WeekRow.effort).sum := by
  have hagg : aggregate [segBobA, segBobB] = [aggBob] := by
    norm_num [aggregate, groupKeys, keyedSegs, segKey, uniqueFirst, uniqueFirstAux,
      aggRowFor, projectsLabel, sortedUnique, keyLE, keyLEb, rowKey,
      segBobA, segBobB, aggBob, List.insertionSort, List.orderedInsert,
      List.filterMap_cons, Option.map, Function.comp]
    rw [if_pos (show (['A'] : List Char) ≤ ['B'] by decide)]
    rfl
  have hmem : aggBob ∈ aggregate [segBobA, segBobB] := by
    rw [hagg]
    exact List.mem_singleton.mpr rfl
  exact ⟨hmem, (aggregator_effort_additivity _).1 _ hmem⟩

/-- C9: the aggregated `projects_label` is the alphabetically sorted,
deduplicated, `", "`-joined list of contributing project names, and is
invariant under reordering of the input: permuted inputs give the same
label, the underlying list is sorted and duplicate-free, and it contains
exactly the projects of the input. -/
theorem projects_label_sorted_dedup (ps qs : List String) (h : ps.Perm qs) :
    projectsLabel ps = projectsLabel qs
    ∧ (sortedUnique ps).Sorted (· ≤ ·)
    ∧ (sortedUnique ps).Nodup
    ∧ (∀ a, a ∈ sortedUnique ps ↔ a ∈ ps) := by
  have hsorted : ∀ l : List String, (sortedUnique l).Sorted (· ≤ ·) :=
    fun l => List.sorted_insertionSort _ _
  have hnodup : ∀ l : List String, (sortedUnique l).Nodup :=
    fun l => ((List.perm_insertionSort _ _).nodup_iff).mpr (nodup_uniqueFirst _)
  have hmem : ∀ (l : List String) (a : String), a ∈ sortedUnique l ↔ a ∈ l := by
    intro l a
    rw [sortedUnique, List.mem_insertionSort, mem_uniqueFirst]
  refine ⟨?_, hsorted ps, hnodup ps, hmem ps⟩
  have hperm : (sortedUnique ps).Perm (sortedUnique qs) := by
    rw [List.perm_ext_iff_of_nodup (hnodup ps) (hnodup qs)]
    intro a
    rw [hmem, hmem]
    exact h.mem_iff
  rw [projectsLabel, projectsLabel,
    List.eq_of_perm_of_sorted hperm (hsorted ps) (hsorted qs)]

theorem projects_label_sorted_dedup_witness :
    (["B", "A", "B"] : List String).Perm ["A", "B", "B"]
    ∧ (projectsLabel ["B", "A", "B"] = projectsLabel ["A", "B", "B"]
       ∧ (sortedUnique ["B", "A", "B"]).Sorted (· ≤ ·)
       ∧ (sortedUnique ["B", "A", "B"]).Nodup
       ∧ (∀ a, a ∈ sortedUnique ["B", "A", "B"] ↔ a ∈ ["B", "A", "B"])) :=
  ⟨by decide, projects_label_sorted_dedup _ _ (by decide)⟩

/-- C3, counterexample: a source row whose combined skill lists are empty
or absent yields ONE expanded record, not zero: pandas `explode` turns an
empty list into a single row whose `Skill` is `NaN`. -/
theorem skill_expander_empty_yields_one_row :
    extract_skills none none = []
    ∧ explodeSkills (extract_skills none none) = [none]
    ∧ (explodeSkills (extract_skills none none)).length ≠ 0 :=
  ⟨rfl, rfl, by decide⟩

/-- C3 (amended): a source row whose combined skill lists are empty or
absent yields exactly one record from the expander, carrying a missing
(`NaN`) skill; such records never reach the skill-aware views because the
aggregation's `groupby` silently drops rows whose `Skill` key is null —
dropping the null-skill rows beforehand does not change the aggregate. -/
theorem skill_expander_empty_excluded (core other : Option String)
    (h : extract_skills core other = []) :
    explodeSkills (extract_skills core other) = [none]
    ∧ ∀ segs : List WeekRow,
        aggregate (segs.filter fun r => r.skill.isSome) = aggregate segs := by
  constructor
  · rw [h]
    rfl
  · intro segs
    have hkeyed := keyedSegs_filter_isSome segs
    have hrow : ∀ k, aggRowFor (segs.filter fun r => r.skill.isSome) k
        = aggRowFor segs k := by
      intro k
      rw [aggRowFor, aggRowFor, hkeyed]
    rw [aggregate, aggregate, groupKeys, groupKeys, hkeyed]
    exact List.map_congr_left fun k _ => hrow k

theorem skill_expander_empty_excluded_witness :
    extract_skills none none = []
    ∧ (explodeSkills (extract_skills none none) = [none]
       ∧ ∀ segs : List WeekRow,
          aggregate (segs.filter fun r => r.skill.isSome) = aggregate segs) :=
  ⟨rfl, skill_expander_empty_excluded none none rfl⟩

/-- C4: the filter output is always a sublist (hence subset) of its input;
and filtering with the code's own universes — the consultant and skill
option lists computed from the collection (lines 94 and 110) — together
with a date window containing every segment returns the collection
unchanged. -/
theorem filter_engine_subset_and_universe (sd ed : Int)
    (consultants skills : List String) (rows : List AggRow) :
    (filterEngine sd ed consultants skills rows).Sublist rows
    ∧ ((∀ r ∈ rows, sd ≤ r.period_start ∧ r.period_end ≤ ed) →
        filterEngine sd ed (consultantList rows) (skillList rows) rows = rows) := by
  constructor
  · exact List.filter_sublist _
  · intro hall
    rw [filterEngine, List.filter_eq_self]
    intro r hr
    obtain ⟨h1, h2⟩ := hall r hr
    have hname : r.name ∈ consultantList rows := by
      rw [consultantList, sortedUnique, List.mem_insertionSort, mem_uniqueFirst]
      exact List.mem_map_of_mem _ hr
    have hskill : r.skill ∈ skillList rows := by
      rw [skillList, sortedUnique, List.mem_insertionSort, mem_uniqueFirst]
      exact List.mem_map_of_mem _ hr
    simp [h1, h2, hname, hskill]

theorem filter_engine_subset_and_universe_witness :
    (∀ r ∈ [aggBob], (0 : Int) ≤ r.period_start ∧ r.period_end ≤ 10)
    ∧ (filterEngine 0 10 ["X"] ["Y"] [aggBob]).Sublist [aggBob]
    ∧ filterEngine 0 10 (consultantList [aggBob]) (skillList [aggBob]) [aggBob]
      = [aggBob] := by
  refine ⟨by decide, (filter_engine_subset_and_universe 0 10 ["X"] ["Y"] _).1,
    (filter_engine_subset_and_universe 0 10 ["X"] ["Y"] _).2 (by decide)⟩

/-- C8: an empty consultants selection (or an empty skills selection)
filters every row out — `isin` on an empty list is all-`False` — so the
result is the empty collection; the filter is a total function and raises
no error. -/
theorem filter_engine_empty_selection (sd ed : Int)
    (consultants skills : List String) (rows : List AggRow) :
    filterEngine sd ed [] skills rows = []
    ∧ filterEngine sd ed consultants [] rows = [] := by
  constructor <;>
  · rw [filterEngine, List.filter_eq_nil_iff]
    intro r hr
    simp

/-- C5, counterexample: with `ConsultantName` absent and one data row, the
script does not abort before any row is processed and raises no
`SchemaError`: skill extraction and the whole-column coercions run over
the frame first, and the failure surfaces only as a `KeyError` for the
canonical column `Name` inside the week-expansion loop. -/
theorem normalizer_no_schema_precheck :
    runPipeline ["ProjectName", "Efforts_Percentage", "StartDate", "EndDate",
      "CoreSkill", "OtherSkills"] 1
      = .error ⟨Stage.expand, "Name"⟩ := rfl

/-- C5 (amended): a missing required column does abort the batch — with at
least one data row, a run whose canonical `Name`, `Projects`, `Effort`,
`Start` or `End` column is absent always ends in an error — but the error
is an untyped column-lookup `KeyError` raised at the stage that first
touches the missing column, not a dedicated `SchemaError` raised before
processing. -/
theorem normalizer_missing_column_errors (cols0 : List String) (nrows : Nat)
    (hr : 0 < nrows)
    (h : "Name" ∉ cols0.map renameMap ∨ "Projects" ∉ cols0.map renameMap
       ∨ "Effort" ∉ cols0.map renameMap ∨ "Start" ∉ cols0.map renameMap
       ∨ "End" ∉ cols0.map renameMap) :
    ∃ e : PipelineError, runPipeline cols0 nrows = .error e := by
  rw [runPipeline]
  split_ifs <;> first
    | exact ⟨_, rfl⟩
    | (exfalso; tauto)

theorem normalizer_missing_column_errors_witness :
    0 < 1
    ∧ ("Name" ∉ (["ConsultantName", "ProjectName", "Efforts_Percentage",
          "EndDate", "CoreSkill", "OtherSkills"] : List String).map renameMap
       ∨ "Projects" ∉ (["ConsultantName", "ProjectName", "Efforts_Percentage",
          "EndDate", "CoreSkill", "OtherSkills"] : List String).map renameMap
       ∨ "Effort" ∉ (["ConsultantName", "ProjectName", "Efforts_Percentage",
          "EndDate", "CoreSkill", "OtherSkills"] : List String).map renameMap
       ∨ "Start" ∉ (["ConsultantName", "ProjectName", "Efforts_Percentage",
          "EndDate", "CoreSkill", "OtherSkills"] : List String).map renameMap
       ∨ "End" ∉ (["ConsultantName", "ProjectName", "Efforts_Percentage",
          "EndDate", "CoreSkill", "OtherSkills"] : List String).map renameMap)
    ∧ ∃ e : PipelineError,
        runPipeline ["ConsultantName", "ProjectName", "Efforts_Percentage",
          "EndDate", "CoreSkill", "OtherSkills"] 1 = .error e :=
  ⟨by decide, by decide,
    normalizer_missing_column_errors _ 1 (by decide) (by decide)⟩

end Gantt
